import Mathlib

/-!
Shallow embedding of `csim.c` (trace-driven set-associative cache simulator
with write-back / write-allocate and LRU replacement), together with proofs
about its claims.

The cache is a list of sets; each set is a list of `Line` records mirroring
`cache_line_t` (`valid`, `tag`, `dirty`).  The C code stores a set as `E`
consecutive array slots; here a set is a list whose length plays the role of
`E`.  Machine integers are modelled as `Nat` with explicit `% 2 ^ 64` where
the C code relies on 64-bit wrap-around.
-/

namespace Csim

abbrev Chars := List Char

/-- Mirrors `cache_line_t` from csim.c: `int valid` (0/1), an
`unsigned long long tag` and `int dirty` (0/1).  The 0/1 ints are
modelled as `Bool`. -/
structure Line where
  valid : Bool
  tag : Nat
  dirty : Bool
deriving DecidableEq

/-- Mirrors `csim_stats_t`: the five counters updated by `simulate` and the
final sweep in `main`. -/
structure CsimStats where
  hits : Nat
  misses : Nat
  evictions : Nat
  dirty_bytes : Nat
  dirty_evictions : Nat
deriving DecidableEq

/-- Result of the scan loop in `simulate`: `res` in the C code.
`hit` is a tag match on a valid line, `cold` means the scan stopped at an
invalid line (`res == 0`), `full` means the loop finished with every line
valid and no match (`res == -1`, the eviction path). -/
inductive AccessResult
  | hit
  | cold
  | full
deriving DecidableEq

/-- Hit-promotion loop of `simulate`:
`for (j = i; (j < E-1) && ((cache_set+j+1)->valid == 1); j++) { copy tag/dirty left }`
followed by `(cache_set+j)->tag = tag;` and `dirty = 1` on a store.
`c` is the slot at the current position `j`, `rest` the slots after it.
Note the loop copies only `tag` and `dirty` (each slot keeps its `valid`),
and after the loop slot `j` keeps its own `dirty` unless the op is a store. -/
def shiftHit (c : Line) (rest : List Line) (t : Nat) (store : Bool) : List Line :=
  match rest with
  | next :: rs =>
    if next.valid then
      { c with tag := next.tag, dirty := next.dirty } :: shiftHit next rs t store
    else
      { c with tag := t, dirty := if store then true else c.dirty } :: next :: rs
  | [] => [{ c with tag := t, dirty := if store then true else c.dirty }]

/-- Eviction loop of `simulate`:
`for (k = 0; k < E-1; k++) { copy tag/dirty left }` then
`(cache_set+k)->tag = tag; dirty = 0; if store dirty = 1;`.
Runs over the whole set unconditionally. -/
def shiftEvict (c : Line) (rest : List Line) (t : Nat) (store : Bool) : List Line :=
  match rest with
  | next :: rs => { c with tag := next.tag, dirty := next.dirty } :: shiftEvict next rs t store
  | [] => [{ c with tag := t, dirty := store }]

/-- The scan loop `for (int i = 0; i < E; i++)` of `simulate`: stop at the
first invalid line (cold miss, fill in place: `tag = tag; valid = 1;
if store dirty = 1`), or at the first valid line whose tag matches (hit,
run the promotion shift), otherwise keep scanning. -/
def walk (t : Nat) (store : Bool) : List Line → List Line × AccessResult
  | [] => ([], AccessResult.full)
  | l :: ls =>
    if l.valid = false then
      ({ l with valid := true, tag := t, dirty := if store then true else l.dirty } :: ls,
       AccessResult.cold)
    else if l.tag = t then
      (shiftHit l ls t store, AccessResult.hit)
    else
      (l :: (walk t store ls).1, (walk t store ls).2)

/-- One access to a single set: the scan loop followed, in the `res == -1`
case, by the eviction shift over the whole set. -/
def accessSet (t : Nat) (store : Bool) (set : List Line) : List Line × AccessResult :=
  match walk t store set with
  | (_, AccessResult.full) =>
    match set with
    | [] => ([], AccessResult.full)
    | c :: rs => (shiftEvict c rs t store, AccessResult.full)
  | r => r

/-- Mirrors `simulate` in csim.c: pick the addressed set
(`cache + set * E`), run the access, and update the counters.  On the
eviction path the dirty check reads `cache_set->dirty`, the head of the set
before the shift.  The op is the strtok token; the store test is
`strcmp(op, "S") == 0`. -/
def simulate (cache : List (List Line)) (tag setIdx B : Nat) (stats : CsimStats)
    (op : Chars) : List (List Line) × CsimStats :=
  match accessSet tag (op == ['S']) (cache.getD setIdx []) with
  | (cset', AccessResult.hit) =>
    (cache.set setIdx cset', { stats with hits := stats.hits + 1 })
  | (cset', AccessResult.cold) =>
    (cache.set setIdx cset', { stats with misses := stats.misses + 1 })
  | (cset', AccessResult.full) =>
    (cache.set setIdx cset',
     { stats with
         misses := stats.misses + 1
         evictions := stats.evictions + 1
         dirty_evictions := stats.dirty_evictions +
           (match cache.getD setIdx [] with
            | [] => 0
            | c :: _ => if c.dirty then B else 0) })

/-- Tag extraction in `process_trace_file`: `tag = addr >> (s + b)`.
(The C shift is well defined for `s + b < 64`; we use the mathematical
right shift.) -/
def tagOf (s b addr : Nat) : Nat := addr / 2 ^ (s + b)

/-- Set-index extraction in `process_trace_file`:
`if (s == 0) set = 0; else set = (addr << (64 - s - b)) >> (64 - s);`
on 64-bit unsigned arithmetic. -/
def setIdxOf (s b addr : Nat) : Nat :=
  if s = 0 then 0
  else ((addr * 2 ^ (64 - s - b)) % 2 ^ 64) / 2 ^ (64 - s)

/-- Membership of a character in the C "C"-locale `isspace` class, used by
`strtoull`/`strtoul` to skip leading whitespace. -/
def isSpaceChar (c : Char) : Bool :=
  c = ' ' || c = '\t' || c = '\n' || c = '\x0b' || c = '\x0c' || c = '\r'

/-- One `strtok` call: skip leading delimiter characters; if nothing is
left return NULL (`none`); otherwise the token is the maximal run of
non-delimiter characters and the saved position is just past the
terminating delimiter (or the end of the string). -/
def strtokStep (delims : Chars) (s : Chars) : Option (Chars × Chars) :=
  let s1 := s.dropWhile fun c => delims.contains c
  match s1 with
  | [] => none
  | _ =>
    some (s1.takeWhile fun c => !(delims.contains c),
          ((s1.dropWhile fun c => !(delims.contains c)).drop 1))

/-- Value of a digit character for `strtoul`-style conversion (letters are
accepted up to the base, as in C). -/
def digitValue (base : Nat) (c : Char) : Option Nat :=
  let v : Option Nat :=
    if '0' ≤ c ∧ c ≤ '9' then some (c.toNat - '0'.toNat)
    else if 'a' ≤ c ∧ c ≤ 'z' then some (c.toNat - 'a'.toNat + 10)
    else if 'A' ≤ c ∧ c ≤ 'Z' then some (c.toNat - 'A'.toNat + 10)
    else none
  match v with
  | some d => if d < base then some d else none
  | none => none

/-- Maximal digit run consumed by `strtoul`-style conversion, accumulating
the (unbounded) value, returning the value together with the rest of the
string (the `endptr` position). -/
def digitsRun (base : Nat) : Nat → Chars → Nat × Chars
  | acc, [] => (acc, [])
  | acc, c :: cs =>
    match digitValue base c with
    | some d => digitsRun base (acc * base + d) cs
    | none => (acc, c :: cs)

/-- Model of C `strtoull`/`strtoul` (identical on an LP64 platform): skip
leading whitespace, accept an optional sign (a minus negates in unsigned
64-bit arithmetic), accept a `0x`/`0X` prefix in base 16 when a hex digit
follows, then consume the maximal digit run.  If the value is out of range
the result is `ULLONG_MAX = 2^64 - 1` (the caller of csim.c does not check
`errno`).  If no digits can be consumed the result is 0 and `endptr` is the
original string. -/
def strtoulM (base : Nat) (s : Chars) : Nat × Chars :=
  let s1 := s.dropWhile isSpaceChar
  let signAndRest : Bool × Chars :=
    match s1 with
    | '-' :: r => (true, r)
    | '+' :: r => (false, r)
    | _ => (false, s1)
  let neg := signAndRest.1
  let s2 := signAndRest.2
  let s3 : Chars :=
    if base = 16 then
      match s2 with
      | '0' :: c :: r =>
        if (c = 'x' || c = 'X') &&
            (match r with
             | d :: _ => (digitValue 16 d).isSome
             | [] => false) then r
        else s2
      | _ => s2
    else s2
  match s3 with
  | [] => (0, s)
  | c :: _ =>
    match digitValue base c with
    | none => (0, s)
    | some _ =>
      let nr := digitsRun base 0 s3
      let v :=
        if nr.1 > 2 ^ 64 - 1 then 2 ^ 64 - 1
        else if neg then (2 ^ 64 - nr.1 % 2 ^ 64) % 2 ^ 64
        else nr.1
      (v, nr.2)

/-- One iteration of the `while (fgets(...))` loop body of
`process_trace_file`, given the contents of `linebuf` (one input line,
including its newline when it fits the 30-byte buffer): check that a
newline was read, tokenize with `strtok` on `" "`, `","`, `"\n"`, check
the op is `L` or `S`, convert the address (base 16) and the size (base 10),
and apply the validation checks `*endptr != '\0' || addr > MAXADDR` and
`*endptr != '\0' || size > MAXSIZE`.  Returns `none` exactly when the C
code `return 1`s for this line. -/
def parseRecord (buf : Chars) : Option (Chars × Nat × Nat) :=
  if buf.contains '\n' then
    match strtokStep [' '] buf with
    | none => none
    | some (op, rest1) =>
      if op ≠ ['L'] ∧ op ≠ ['S'] then none
      else
        match strtokStep [','] rest1 with
        | none => none
        | some (addrStr, rest2) =>
          match strtokStep ['\n'] rest2 with
          | none => none
          | some (sizeStr, _) =>
            let ar := strtoulM 16 addrStr
            if ar.2 ≠ [] ∨ ar.1 > 2 ^ 64 - 1 then none
            else
              let sr := strtoulM 10 sizeStr
              if sr.2 ≠ [] ∨ sr.1 > 1024 then none
              else some (op, ar.1, sr.1)
  else none

/-- The `while (fgets(...))` loop of `process_trace_file`: the trace is
given as the list of line buffers `fgets` would return; each successfully
parsed record is turned into `(tag, set)` and fed to `simulate`; the first
parse error aborts the whole run (`return 1`, modelled as `none`).  The
parsed size is validated but otherwise unused, as in the C code. -/
def processLines (s b B : Nat) :
    List Chars → List (List Line) → CsimStats → Option (List (List Line) × CsimStats)
  | [], cache, stats => some (cache, stats)
  | buf :: rest, cache, stats =>
    match parseRecord buf with
    | none => none
    | some (op, addr, _) =>
      let p := simulate cache (tagOf s b addr) (setIdxOf s b addr) B stats op
      processLines s b B rest p.1 p.2

/-- Initial line state set up in `main`: `valid = 0`, `dirty = 0`,
`tag = MAXADDR`. -/
def initLine : Line := { valid := false, tag := 2 ^ 64 - 1, dirty := false }

/-- The freshly allocated cache of `main`: `S = 2^s` sets of `E` lines. -/
def initCache (S E : Nat) : List (List Line) :=
  List.replicate S (List.replicate E initLine)

/-- All-zero statistics, as initialised in `main`. -/
def initStats : CsimStats :=
  { hits := 0, misses := 0, evictions := 0, dirty_bytes := 0, dirty_evictions := 0 }

/-- End-of-trace sweep in `main`:
`for (i = 0; i < S*E; i++) if ((cache+i)->dirty == 1) stats->dirty_bytes += B;`
— it looks only at the dirty flag, not at the valid flag. -/
def sweepDirtyBytes (B : Nat) (cache : List (List Line)) : Nat :=
  cache.foldl (fun acc set => set.foldl (fun a l => if l.dirty then a + B else a) acc) 0

/-- Number of lines that are both valid and dirty, summed over all sets. -/
def countValidDirty (cache : List (List Line)) : Nat :=
  (cache.map fun set => (set.filter fun l => l.valid && l.dirty).length).sum

/-- Whole run of `main` after argument validation: build the initial cache,
process the trace, and on success add the end-of-trace dirty-byte sweep to
`dirty_bytes` before the summary is printed.  `none` models the
`Error while parsing trace file.` + `exit(1)` path, on which no summary is
emitted. -/
def runSim (s b E : Nat) (lines : List Chars) : Option CsimStats :=
  match processLines s b (2 ^ b) lines (initCache (2 ^ s) E) initStats with
  | none => none
  | some (cache, stats) =>
    some { stats with dirty_bytes := stats.dirty_bytes + sweepDirtyBytes (2 ^ b) cache }

/-- Iterated load of one fixed address: `n` consecutive `L addr,size` records
applied through `simulate`. -/
def simLoads (s b B addr : Nat) :
    Nat → List (List Line) × CsimStats → List (List Line) × CsimStats
  | 0, p => p
  | n + 1, p =>
    simLoads s b B addr n (simulate p.1 (tagOf s b addr) (setIdxOf s b addr) B p.2 ['L'])

/-- Trace line `S 1,1\n` and friends, as the character buffers `fgets`
returns them. -/
def lineS1 : Chars := ['S', ' ', '1', ',', '1', '\n']

def lineS2 : Chars := ['S', ' ', '2', ',', '1', '\n']

def lineS3 : Chars := ['S', ' ', '3', ',', '1', '\n']

def lineS4 : Chars := ['S', ' ', '4', ',', '1', '\n']

def lineS5 : Chars := ['S', ' ', '5', ',', '1', '\n']

def lineL1 : Chars := ['L', ' ', '1', ',', '1', '\n']

def lineL0 : Chars := ['L', ' ', '0', ',', '1', '\n']

def lineS0 : Chars := ['S', ' ', '0', ',', '1', '\n']

/-- Trace line `L 1,0\n` (size numeral zero). -/
def lineSizeZero : Chars := ['L', ' ', '1', ',', '0', '\n']

/-- Trace line `L 10000000000000000,1\n`: the address numeral denotes
`16^16 = 2^64`, one past the largest 64-bit value. -/
def lineAddrOver : Chars :=
  ['L', ' ', '1', '0', '0', '0', '0', '0', '0', '0', '0', '0', '0', '0', '0', '0', '0', '0',
   '0', ',', '1', '\n']

/-- The six-record trace of spec scenario 5 (claim C8). -/
def traceC8 : List Chars := [lineS1, lineS2, lineL1, lineS3, lineS4, lineS5]

/-- The three-record trace `S 0,1; L 1,1; L 0,1` exhibiting the dirty-bit
loss on a load hit (claim C1). -/
def traceC1 : List Chars := [lineS0, lineL1, lineL0]

/-- Structural invariant actually maintained by csim.c: the valid lines of a
set occupy a contiguous block of positions starting at position 0 and the
invalid lines (all still clean) occupy the remaining positions at the end of
the set. -/
def GoodSet (ls : List Line) : Prop :=
  ∃ vs ivs, ls = vs ++ ivs ∧ (∀ l ∈ vs, l.valid = true) ∧
    (∀ l ∈ ivs, l.valid = false ∧ l.dirty = false)

/-- Every set of the cache satisfies `GoodSet`. -/
def GoodCache (cache : List (List Line)) : Prop :=
  ∀ set ∈ cache, GoodSet set

/-- The valid block at the low positions of a set. -/
def validPart (ls : List Line) : List Line := ls.takeWhile fun l => l.valid

/-- Rendering of the placement asserted by the spec for claim C2: the
invalid lines occupy a contiguous block of the lowest positions, i.e.
whenever a position holds a valid line, every higher position does too. -/
def invalidLinesAtBottom (set : List Line) : Prop :=
  ∀ i j : Fin set.length, i ≤ j → (set.get i).valid = true → (set.get j).valid = true

/-! Characterisations of the scan and shift loops on sets whose valid lines
form a block at the low positions. -/

theorem walk_full_of_no_match (t : Nat) (st : Bool) (ls : List Line)
    (h : ∀ l ∈ ls, l.valid = true ∧ l.tag ≠ t) :
    walk t st ls = (ls, AccessResult.full) := by
  induction ls with
  | nil => rfl
  | cons a as ih =>
    have ha := h a (List.mem_cons_self a as)
    have has : ∀ l ∈ as, l.valid = true ∧ l.tag ≠ t :=
      fun l hl => h l (List.mem_cons_of_mem a hl)
    simp [walk, ha.1, ha.2, ih has]

theorem walk_cold_char (t : Nat) (st : Bool) (vs : List Line) (i0 : Line) (ivs : List Line)
    (hvs : ∀ l ∈ vs, l.valid = true ∧ l.tag ≠ t) (hi : i0.valid = false) :
    walk t st (vs ++ i0 :: ivs) =
      (vs ++ { i0 with valid := true, tag := t, dirty := if st then true else i0.dirty } :: ivs,
       AccessResult.cold) := by
  induction vs with
  | nil => simp [walk, hi]
  | cons a as ih =>
    have ha := hvs a (List.mem_cons_self a as)
    have has : ∀ l ∈ as, l.valid = true ∧ l.tag ≠ t :=
      fun l hl => hvs l (List.mem_cons_of_mem a hl)
    simp [walk, ha.1, ha.2, ih has]

theorem walk_hit_char (t : Nat) (st : Bool) (pre : List Line) (hl : Line) (rest : List Line)
    (hpre : ∀ l ∈ pre, l.valid = true ∧ l.tag ≠ t) (hv : hl.valid = true) (ht : hl.tag = t) :
    walk t st (pre ++ hl :: rest) = (pre ++ shiftHit hl rest t st, AccessResult.hit) := by
  induction pre with
  | nil => simp [walk, hv, ht]
  | cons a as ih =>
    have ha := hpre a (List.mem_cons_self a as)
    have has : ∀ l ∈ as, l.valid = true ∧ l.tag ≠ t :=
      fun l hl' => hpre l (List.mem_cons_of_mem a hl')
    simp [walk, ha.1, ha.2, ih has]

theorem getLast_getD_irrel (w : Line) (l : List Line) (x y : Line) :
    (w :: l).getLast?.getD x = (w :: l).getLast?.getD y := by
  induction l generalizing w with
  | nil => rfl
  | cons a as ih =>
    rw [List.getLast?_cons_cons]
    exact ih a

theorem shiftHit_char (t : Nat) (st : Bool) (c : Line) (vs ivs : List Line)
    (hc : c.valid = true) (hvs : ∀ l ∈ vs, l.valid = true)
    (hivs : ∀ l ∈ ivs, l.valid = false) :
    shiftHit c (vs ++ ivs) t st =
      vs ++ (⟨true, t, if st then true else (vs.getLastD c).dirty⟩ : Line) :: ivs := by
  induction vs generalizing c with
  | nil =>
    cases ivs with
    | nil => cases c; simp_all [shiftHit]
    | cons i0 ir =>
      have hi0 : i0.valid = false := hivs i0 (List.mem_cons_self _ _)
      cases c; simp_all [shiftHit]
  | cons v vsr ih =>
    have hv : v.valid = true := hvs v (List.mem_cons_self _ _)
    have hvsr : ∀ l ∈ vsr, l.valid = true := fun l hl => hvs l (List.mem_cons_of_mem _ hl)
    have hcv : ({ c with tag := v.tag, dirty := v.dirty } : Line) = v := by
      cases c; cases v; simp_all
    simp [shiftHit, hv, hcv, ih v hv hvsr]
    cases vsr with
    | nil => simp
    | cons w ws =>
      simp only [List.getLast?_cons_cons]
      rw [getLast_getD_irrel w ws v c]

theorem shiftEvict_char (t : Nat) (st : Bool) (c : Line) (rest : List Line)
    (hc : c.valid = true) (hrest : ∀ l ∈ rest, l.valid = true) :
    shiftEvict c rest t st = rest ++ [(⟨true, t, st⟩ : Line)] := by
  induction rest generalizing c with
  | nil => cases c; simp_all [shiftEvict]
  | cons n rs ih =>
    have hn : n.valid = true := hrest n (List.mem_cons_self _ _)
    have hcn : ({ c with tag := n.tag, dirty := n.dirty } : Line) = n := by
      cases c; cases n; simp_all
    simp [shiftEvict, hcn, ih n hn (fun l hl => hrest l (List.mem_cons_of_mem _ hl))]

theorem accessSet_cold_char (t : Nat) (st : Bool) (vs : List Line) (i0 : Line)
    (ivs : List Line)
    (hvs : ∀ l ∈ vs, l.valid = true ∧ l.tag ≠ t) (hi : i0.valid = false) :
    accessSet t st (vs ++ i0 :: ivs) =
      (vs ++ { i0 with valid := true, tag := t, dirty := if st then true else i0.dirty } :: ivs,
       AccessResult.cold) := by
  simp only [accessSet, walk_cold_char t st vs i0 ivs hvs hi]

theorem accessSet_full_char (t : Nat) (st : Bool) (c : Line) (rs : List Line)
    (h : ∀ l ∈ c :: rs, l.valid = true ∧ l.tag ≠ t) :
    accessSet t st (c :: rs) = (rs ++ [(⟨true, t, st⟩ : Line)], AccessResult.full) := by
  have hc : c.valid = true := (h c (List.mem_cons_self _ _)).1
  have hrs : ∀ l ∈ rs, l.valid = true := fun l hl => (h l (List.mem_cons_of_mem _ hl)).1
  simp only [accessSet, walk_full_of_no_match t st _ h]
  rw [shiftEvict_char t st c rs hc hrs]

theorem accessSet_hit_char (t : Nat) (st : Bool) (pre : List Line) (hl : Line)
    (post ivs : List Line)
    (hpre : ∀ l ∈ pre, l.valid = true ∧ l.tag ≠ t) (hv : hl.valid = true) (ht : hl.tag = t)
    (hpost : ∀ l ∈ post, l.valid = true) (hivs : ∀ l ∈ ivs, l.valid = false) :
    accessSet t st (pre ++ hl :: (post ++ ivs)) =
      (pre ++ (post ++ (⟨true, t, if st then true else (post.getLastD hl).dirty⟩ : Line) :: ivs),
       AccessResult.hit) := by
  simp only [accessSet, walk_hit_char t st pre hl (post ++ ivs) hpre hv ht,
    shiftHit_char t st hl post ivs hv hpost hivs]

theorem validPart_eq (vs ivs : List Line) (hvs : ∀ l ∈ vs, l.valid = true)
    (hivs : ∀ l ∈ ivs, l.valid = false) :
    validPart (vs ++ ivs) = vs := by
  induction vs with
  | nil =>
    cases ivs with
    | nil => rfl
    | cons i0 ir => simp [validPart, hivs i0 (List.mem_cons_self _ _)]
  | cons a as ih =>
    simp [validPart, hvs a (List.mem_cons_self _ _)]
    simpa [validPart] using ih (fun l hl => hvs l (List.mem_cons_of_mem _ hl))

theorem exists_first_match (t : Nat) (vs : List Line) (h : ∃ x ∈ vs, x.tag = t) :
    ∃ pre hl post, vs = pre ++ hl :: post ∧ hl.tag = t ∧ ∀ l ∈ pre, l.tag ≠ t := by
  induction vs with
  | nil => simp at h
  | cons a as ih =>
    by_cases ha : a.tag = t
    · exact ⟨[], a, as, rfl, ha, by simp⟩
    · obtain ⟨x, hx, hxt⟩ := h
      rcases List.mem_cons.mp hx with rfl | hx'
      · exact absurd hxt ha
      · obtain ⟨pre, hl, post, heq, hht, hpre⟩ := ih ⟨x, hx', hxt⟩
        refine ⟨a :: pre, hl, post, by rw [heq]; rfl, hht, ?_⟩
        intro l hl'
        rcases List.mem_cons.mp hl' with rfl | h2
        · exact ha
        · exact hpre l h2

/-! Preservation of the structural invariant and bookkeeping lemmas. -/

theorem goodSet_nil : GoodSet [] :=
  ⟨[], [], rfl, by simp, by simp⟩

theorem accessSet_step (t : Nat) (st : Bool) (set : List Line) (hne : set ≠ [])
    (hgood : GoodSet set) :
    GoodSet (accessSet t st set).1 ∧
    (accessSet t st set).1.length = set.length ∧
    ((∃ pre d post,
        validPart set = pre ++ (⟨true, t, d⟩ : Line) :: post ∧
        (∀ l ∈ pre, l.tag ≠ t) ∧
        ∃ d2, validPart (accessSet t st set).1 = (pre ++ post) ++ [(⟨true, t, d2⟩ : Line)] ∧
          (accessSet t st set).2 = AccessResult.hit) ∨
     ((∀ l ∈ validPart set, l.tag ≠ t) ∧ (validPart set).length < set.length ∧
        ∃ d2, validPart (accessSet t st set).1 = validPart set ++ [(⟨true, t, d2⟩ : Line)] ∧
          (accessSet t st set).2 = AccessResult.cold) ∨
     ((∀ l ∈ validPart set, l.tag ≠ t) ∧ (validPart set).length = set.length ∧
        validPart (accessSet t st set).1 = (validPart set).drop 1 ++ [(⟨true, t, st⟩ : Line)] ∧
        (accessSet t st set).2 = AccessResult.full)) := by
  obtain ⟨vs, ivs, rfl, hvs, hivs⟩ := hgood
  have hivs' : ∀ l ∈ ivs, l.valid = false := fun l h => (hivs l h).1
  have hvp : validPart (vs ++ ivs) = vs := validPart_eq vs ivs hvs hivs'
  by_cases hm : ∃ x ∈ vs, x.tag = t
  · -- hit path
    obtain ⟨pre, hl, post, hsplit, hht, hpre⟩ := exists_first_match t vs hm
    subst hsplit
    have hprev : ∀ l ∈ pre, l.valid = true ∧ l.tag ≠ t := fun l h =>
      ⟨hvs l (List.mem_append_left _ h), hpre l h⟩
    have hhv : hl.valid = true :=
      hvs hl (List.mem_append_right _ (List.mem_cons_self _ _))
    have hpostv : ∀ l ∈ post, l.valid = true := fun l h =>
      hvs l (List.mem_append_right _ (List.mem_cons_of_mem _ h))
    have heq : (pre ++ hl :: post) ++ ivs = pre ++ hl :: (post ++ ivs) := by simp
    rw [heq, accessSet_hit_char t st pre hl post ivs hprev hhv hht hpostv hivs']
    rw [heq] at hvp
    dsimp only
    have hlrec : hl = (⟨true, t, hl.dirty⟩ : Line) := by
      cases hl; simp_all
    have hnewv : ∀ l ∈ (pre ++ post) ++
        [(⟨true, t, if st then true else (post.getLastD hl).dirty⟩ : Line)], l.valid = true := by
      intro l hlmem
      simp only [List.mem_append, List.mem_singleton] at hlmem
      rcases hlmem with (h1 | h1) | h1
      · exact (hprev l h1).1
      · exact hpostv l h1
      · subst h1; rfl
    have hres : pre ++ (post ++
        (⟨true, t, if st then true else (post.getLastD hl).dirty⟩ : Line) :: ivs) =
        ((pre ++ post) ++
          [(⟨true, t, if st then true else (post.getLastD hl).dirty⟩ : Line)]) ++ ivs := by
      simp
    refine ⟨?_, ?_, Or.inl ?_⟩
    · exact ⟨(pre ++ post) ++
        [(⟨true, t, if st then true else (post.getLastD hl).dirty⟩ : Line)],
        ivs, hres, hnewv, hivs⟩
    · simp only [List.length_append, List.length_cons]
      omega
    · refine ⟨pre, hl.dirty, post, ?_, hpre, ?_⟩
      · rw [hvp]; exact congrArg (fun x => pre ++ x :: post) hlrec
      · refine ⟨if st then true else (post.getLastD hl).dirty, ?_, rfl⟩
        rw [hres, validPart_eq _ ivs hnewv hivs']
  · -- no matching valid line
    push_neg at hm
    have hvs' : ∀ l ∈ vs, l.valid = true ∧ l.tag ≠ t := fun l h => ⟨hvs l h, hm l h⟩
    cases ivs with
    | nil =>
      -- every line valid: eviction path
      cases vs with
      | nil => exact absurd rfl hne
      | cons c rs =>
        have hall : ∀ l ∈ c :: rs, l.valid = true ∧ l.tag ≠ t := by simpa using hvs'
        have hres := accessSet_full_char t st c rs hall
        have hnewv : ∀ l ∈ rs ++ [(⟨true, t, st⟩ : Line)], l.valid = true := by
          intro l hlmem
          simp only [List.mem_append, List.mem_singleton] at hlmem
          rcases hlmem with h1 | h1
          · exact (hall l (List.mem_cons_of_mem _ h1)).1
          · subst h1; rfl
        simp only [List.append_nil]
        rw [hres]
        dsimp only
        refine ⟨?_, by simp, Or.inr (Or.inr ?_)⟩
        · exact ⟨rs ++ [(⟨true, t, st⟩ : Line)], [], by simp, hnewv, by simp⟩
        · rw [List.append_nil] at hvp
          rw [hvp]
          refine ⟨fun l h => (hvs' l h).2, rfl, ?_, rfl⟩
          have h2 : rs ++ [(⟨true, t, st⟩ : Line)] =
              (rs ++ [(⟨true, t, st⟩ : Line)]) ++ [] := by simp
          rw [h2, validPart_eq _ [] hnewv (by simp)]
          simp
    | cons i0 ir =>
      -- cold-miss path
      have hi0 := hivs i0 (List.mem_cons_self _ _)
      have hir : ∀ l ∈ ir, l.valid = false ∧ l.dirty = false :=
        fun l h => hivs l (List.mem_cons_of_mem _ h)
      rw [accessSet_cold_char t st vs i0 ir hvs' hi0.1]
      dsimp only
      have hnewv : ∀ l ∈ vs ++ [(⟨true, t, if st then true else i0.dirty⟩ : Line)],
          l.valid = true := by
        intro l hlmem
        simp only [List.mem_append, List.mem_singleton] at hlmem
        rcases hlmem with h1 | h1
        · exact hvs l h1
        · subst h1; rfl
      have hres : vs ++ (⟨true, t, if st then true else i0.dirty⟩ : Line) :: ir =
          (vs ++ [(⟨true, t, if st then true else i0.dirty⟩ : Line)]) ++ ir := by
        simp
      refine ⟨?_, by simp, Or.inr (Or.inl ?_)⟩
      · exact ⟨vs ++ [(⟨true, t, if st then true else i0.dirty⟩ : Line)], ir, hres,
          hnewv, hir⟩
      · rw [hvp]
        refine ⟨fun l h => (hvs' l h).2,
          by simp only [List.length_append, List.length_cons]; omega, ?_⟩
        refine ⟨if st then true else i0.dirty, ?_, rfl⟩
        rw [hres, validPart_eq _ ir hnewv (fun l h => (hir l h).1)]

theorem accessSet_good (t : Nat) (st : Bool) (set : List Line) (h : GoodSet set) :
    GoodSet (accessSet t st set).1 := by
  by_cases hne : set = []
  · subst hne; exact goodSet_nil
  · exact (accessSet_step t st set hne h).1

theorem accessSet_length (t : Nat) (st : Bool) (set : List Line) (h : GoodSet set) :
    (accessSet t st set).1.length = set.length := by
  by_cases hne : set = []
  · subst hne; rfl
  · exact (accessSet_step t st set hne h).2.1

/-! Small list helpers for `getD` and `set`. -/

theorem list_getD_mem_or (l : List (List Line)) (i : Nat) :
    l.getD i [] ∈ l ∨ l.getD i [] = ([] : List Line) := by
  induction l generalizing i with
  | nil => right; cases i <;> rfl
  | cons a as ih =>
    cases i with
    | zero => left; exact List.mem_cons_self _ _
    | succ n =>
      rcases ih n with h | h
      · left
        have : (a :: as).getD (n + 1) [] = as.getD n [] := rfl
        rw [this]
        exact List.mem_cons_of_mem _ h
      · right
        have : (a :: as).getD (n + 1) [] = as.getD n [] := rfl
        rw [this, h]

theorem list_getD_set_self (l : List (List Line)) (i : Nat) (x : List Line)
    (h : i < l.length) : (l.set i x).getD i [] = x := by
  induction l generalizing i with
  | nil => simp at h
  | cons a as ih =>
    cases i with
    | zero => rfl
    | succ n => exact ih n (by simpa using h)

theorem list_set_getD_self (l : List (List Line)) (i : Nat) (h : i < l.length) :
    l.set i (l.getD i []) = l := by
  induction l generalizing i with
  | nil => rfl
  | cons a as ih =>
    cases i with
    | zero => rfl
    | succ n =>
      have : (a :: as).set (n + 1) ((a :: as).getD (n + 1) []) =
          a :: as.set n (as.getD n []) := rfl
      rw [this, ih n (by simpa using h)]

/-! Lemmas about `simulate`. -/

theorem simulate_fst (cache : List (List Line)) (t si B : Nat) (stats : CsimStats)
    (op : Chars) :
    (simulate cache t si B stats op).1 =
      cache.set si (accessSet t (op == ['S']) (cache.getD si [])).1 := by
  rcases hA : accessSet t (op == ['S']) (cache.getD si []) with ⟨s', r⟩
  cases r <;> (unfold simulate; rw [hA])

theorem simulate_good (cache : List (List Line)) (t si B : Nat) (stats : CsimStats)
    (op : Chars) (h : GoodCache cache) :
    GoodCache (simulate cache t si B stats op).1 := by
  have hg : GoodSet (cache.getD si []) := by
    rcases list_getD_mem_or cache si with hmem | hnil
    · exact h _ hmem
    · rw [hnil]; exact goodSet_nil
  have hs' : GoodSet (accessSet t (op == ['S']) (cache.getD si [])).1 :=
    accessSet_good _ _ _ hg
  rw [simulate_fst]
  intro set hset
  rcases List.mem_or_eq_of_mem_set hset with h1 | h1
  · exact h _ h1
  · rw [h1]; exact hs'

theorem simulate_stats (cache : List (List Line)) (t si B : Nat) (stats : CsimStats)
    (op : Chars) :
    ((simulate cache t si B stats op).2.hits = stats.hits + 1 ∧
     (simulate cache t si B stats op).2.misses = stats.misses) ∨
    ((simulate cache t si B stats op).2.misses = stats.misses + 1 ∧
     (simulate cache t si B stats op).2.hits = stats.hits) := by
  rcases hA : accessSet t (op == ['S']) (cache.getD si []) with ⟨s', r⟩
  cases r
  · left; unfold simulate; rw [hA]; exact ⟨rfl, rfl⟩
  · right; unfold simulate; rw [hA]; exact ⟨rfl, rfl⟩
  · right; unfold simulate; rw [hA]; exact ⟨rfl, rfl⟩

theorem simulate_miss_stats (cache : List (List Line)) (t si B : Nat) (stats : CsimStats)
    (op : Chars)
    (h : (accessSet t (op == ['S']) (cache.getD si [])).2 ≠ AccessResult.hit) :
    (simulate cache t si B stats op).2.hits = stats.hits ∧
    (simulate cache t si B stats op).2.misses = stats.misses + 1 := by
  rcases hA : accessSet t (op == ['S']) (cache.getD si []) with ⟨s', r⟩
  rw [hA] at h
  cases r
  · simp at h
  · unfold simulate; rw [hA]; exact ⟨rfl, rfl⟩
  · unfold simulate; rw [hA]; exact ⟨rfl, rfl⟩

theorem simulate_dirty_bytes (cache : List (List Line)) (t si B : Nat)
    (stats : CsimStats) (op : Chars) :
    (simulate cache t si B stats op).2.dirty_bytes = stats.dirty_bytes := by
  rcases hA : accessSet t (op == ['S']) (cache.getD si []) with ⟨s', r⟩
  cases r <;> (unfold simulate; rw [hA])

/-! Lemmas about `processLines`. -/

theorem processLines_good (s b B : Nat) (lines : List Chars) :
    ∀ cache stats cache' stats',
      processLines s b B lines cache stats = some (cache', stats') →
      GoodCache cache → GoodCache cache' := by
  induction lines with
  | nil =>
    intro c st c' st' h hg
    simp only [processLines, Option.some.injEq, Prod.mk.injEq] at h
    rw [← h.1]
    exact hg
  | cons buf rest ih =>
    intro c st c' st' h hg
    simp only [processLines] at h
    rcases hp : parseRecord buf with _ | ⟨op, addr, size⟩ <;> rw [hp] at h
    · cases h
    · exact ih _ _ _ _ h (simulate_good _ _ _ _ _ _ hg)

theorem processLines_hits_misses (s b B : Nat) (lines : List Chars) :
    ∀ cache stats cache' stats',
      processLines s b B lines cache stats = some (cache', stats') →
      stats'.hits + stats'.misses = stats.hits + stats.misses + lines.length := by
  induction lines with
  | nil =>
    intro c st c' st' h
    simp only [processLines, Option.some.injEq, Prod.mk.injEq] at h
    rw [← h.2]
    simp
  | cons buf rest ih =>
    intro c st c' st' h
    simp only [processLines] at h
    rcases hp : parseRecord buf with _ | ⟨op, addr, size⟩ <;> rw [hp] at h
    · cases h
    · have hstep := simulate_stats c (tagOf s b addr) (setIdxOf s b addr) B st op
      have := ih _ _ _ _ h
      rcases hstep with ⟨h1, h2⟩ | ⟨h1, h2⟩ <;>
        (rw [this, h1, h2]; simp [List.length_cons]; omega)

theorem processLines_dirty_bytes (s b B : Nat) (lines : List Chars) :
    ∀ cache stats cache' stats',
      processLines s b B lines cache stats = some (cache', stats') →
      stats'.dirty_bytes = stats.dirty_bytes := by
  induction lines with
  | nil =>
    intro c st c' st' h
    simp only [processLines, Option.some.injEq, Prod.mk.injEq] at h
    rw [← h.2]
  | cons buf rest ih =>
    intro c st c' st' h
    simp only [processLines] at h
    rcases hp : parseRecord buf with _ | ⟨op, addr, size⟩ <;> rw [hp] at h
    · cases h
    · rw [ih _ _ _ _ h, simulate_dirty_bytes]

theorem initCache_good (S E : Nat) : GoodCache (initCache S E) := by
  intro set hset
  have hset' : set = List.replicate E initLine := List.eq_of_mem_replicate hset
  subst hset'
  refine ⟨[], List.replicate E initLine, rfl, by simp, ?_⟩
  intro l hl
  have : l = initLine := List.eq_of_mem_replicate hl
  subst this
  exact ⟨rfl, rfl⟩

theorem goodCache_dirty_valid (cache : List (List Line)) (h : GoodCache cache) :
    ∀ set ∈ cache, ∀ l ∈ set, l.dirty = true → l.valid = true := by
  intro set hset l hl hd
  obtain ⟨vs, ivs, rfl, hvs, hivs⟩ := h set hset
  rcases List.mem_append.mp hl with h1 | h1
  · exact hvs l h1
  · exact absurd hd (by simp [(hivs l h1).2])

/-! The end-of-trace dirty-byte sweep. -/

theorem foldl_dirty_count (B : Nat) (ls : List Line) (acc : Nat) :
    ls.foldl (fun a l => if l.dirty then a + B else a) acc =
      acc + B * (ls.filter fun l => l.dirty).length := by
  induction ls generalizing acc with
  | nil => simp
  | cons a as ih =>
    by_cases hd : a.dirty = true
    · simp only [List.foldl_cons, ih, List.filter_cons, hd, if_pos, List.length_cons]
      ring
    · simp only [List.foldl_cons, ih, List.filter_cons, hd]
      simp [hd]

theorem sweep_count (B : Nat) (cache : List (List Line)) :
    sweepDirtyBytes B cache =
      B * (cache.map fun set => (set.filter fun l => l.dirty).length).sum := by
  unfold sweepDirtyBytes
  suffices h : ∀ acc, cache.foldl
      (fun acc set => set.foldl (fun a l => if l.dirty then a + B else a) acc) acc =
      acc + B * (cache.map fun set => (set.filter fun l => l.dirty).length).sum by
    simpa using h 0
  induction cache with
  | nil => intro acc; simp
  | cons hd tl ih =>
    intro acc
    simp only [List.foldl_cons, List.map_cons, List.sum_cons]
    rw [ih, foldl_dirty_count]
    ring

theorem sweep_eq_validDirty (B : Nat) (cache : List (List Line))
    (h : ∀ set ∈ cache, ∀ l ∈ set, l.dirty = true → l.valid = true) :
    sweepDirtyBytes B cache = B * countValidDirty cache := by
  rw [sweep_count]
  unfold countValidDirty
  congr 1
  congr 1
  apply List.map_congr_left
  intro set hset
  congr 1
  apply List.filter_congr
  intro l hl
  cases hld : l.dirty
  · simp
  · simp [h set hset l hl hld]

/-! Arithmetic of the shift-based set-index extraction. -/

theorem setIdxOf_eq (s b addr : Nat) (hsb : s + b ≤ 64) :
    setIdxOf s b addr = (addr / 2 ^ b) % 2 ^ s := by
  unfold setIdxOf
  by_cases hs : s = 0
  · simp [hs, Nat.mod_one]
  · rw [if_neg hs]
    have hx : 64 - s - b + (b + s) = 64 := by omega
    have h1 : (2 : Nat) ^ 64 = 2 ^ (64 - s - b) * 2 ^ (b + s) := by
      rw [← pow_add, hx]
    have h2 : (2 : Nat) ^ (64 - s) = 2 ^ (64 - s - b) * 2 ^ b := by
      rw [← pow_add]
      congr 1
      omega
    rw [h1, h2, Nat.mul_comm addr, Nat.mul_mod_mul_left,
      Nat.mul_div_mul_left _ _ (Nat.pos_pow_of_pos _ (by norm_num)),
      show (2 : Nat) ^ (b + s) = 2 ^ b * 2 ^ s from by rw [← pow_add]]
    exact Nat.mod_mul_right_div_self addr (2 ^ b) (2 ^ s)

theorem setIdxOf_lt (s b addr : Nat) (hs : s ≤ 64) : setIdxOf s b addr < 2 ^ s := by
  unfold setIdxOf
  by_cases h0 : s = 0
  · simp [h0]
  · rw [if_neg h0]
    apply Nat.div_lt_of_lt_mul
    calc (addr * 2 ^ (64 - s - b)) % 2 ^ 64 < 2 ^ 64 :=
          Nat.mod_lt _ (Nat.pos_pow_of_pos _ (by norm_num))
      _ = 2 ^ (64 - s) * 2 ^ s := by
          rw [← pow_add]
          congr 1
          omega

/-! Repeated loads of one address. -/

theorem accessSet_absent (t : Nat) (st : Bool) (set : List Line) (hne : set ≠ [])
    (hgood : GoodSet set)
    (habs : ∀ l ∈ set, l.valid = true → l.tag ≠ t) :
    ∃ vs2 ivs2 d,
      (accessSet t st set).1 = vs2 ++ (⟨true, t, d⟩ : Line) :: ivs2 ∧
      (∀ l ∈ vs2, l.valid = true ∧ l.tag ≠ t) ∧
      (∀ l ∈ ivs2, l.valid = false) ∧
      (accessSet t st set).2 ≠ AccessResult.hit := by
  obtain ⟨vs, ivs, rfl, hvs, hivs⟩ := hgood
  have hvs' : ∀ l ∈ vs, l.valid = true ∧ l.tag ≠ t := fun l h =>
    ⟨hvs l h, habs l (List.mem_append_left _ h) (hvs l h)⟩
  cases ivs with
  | cons i0 ir =>
    have hi0 := hivs i0 (List.mem_cons_self _ _)
    rw [accessSet_cold_char t st vs i0 ir hvs' hi0.1]
    exact ⟨vs, ir, if st then true else i0.dirty, rfl, hvs',
      fun l h => (hivs l (List.mem_cons_of_mem _ h)).1, by simp⟩
  | nil =>
    cases vs with
    | nil => simp at hne
    | cons c rs =>
      have hall : ∀ l ∈ c :: rs, l.valid = true ∧ l.tag ≠ t := by simpa using hvs'
      rw [List.append_nil, accessSet_full_char t st c rs hall]
      refine ⟨rs, [], st, by simp, ?_, by simp, by simp⟩
      exact fun l h => hall l (List.mem_cons_of_mem _ h)

theorem accessSet_MRU_hit (t : Nat) (vs2 ivs2 : List Line) (d : Bool)
    (hvs : ∀ l ∈ vs2, l.valid = true ∧ l.tag ≠ t)
    (hivs : ∀ l ∈ ivs2, l.valid = false) :
    accessSet t false (vs2 ++ (⟨true, t, d⟩ : Line) :: ivs2) =
      (vs2 ++ (⟨true, t, d⟩ : Line) :: ivs2, AccessResult.hit) := by
  have h := accessSet_hit_char t false vs2 ⟨true, t, d⟩ [] ivs2 hvs rfl rfl (by simp) hivs
  simpa using h

theorem simLoads_stable (s b B addr : Nat) (k : Nat) :
    ∀ (cache1 : List (List Line)) (st1 : CsimStats),
    (∃ vs2 ivs2 d,
      cache1.getD (setIdxOf s b addr) [] =
        vs2 ++ (⟨true, tagOf s b addr, d⟩ : Line) :: ivs2 ∧
      (∀ l ∈ vs2, l.valid = true ∧ l.tag ≠ tagOf s b addr) ∧
      (∀ l ∈ ivs2, l.valid = false)) →
    setIdxOf s b addr < cache1.length →
    simLoads s b B addr k (cache1, st1) = (cache1, { st1 with hits := st1.hits + k }) := by
  induction k with
  | zero =>
    intro cache1 st1 _ _
    cases st1
    rfl
  | succ n ih =>
    intro cache1 st1 hshape hsi
    obtain ⟨vs2, ivs2, d, hget, hvs2, hivs2⟩ := hshape
    have hstep : simulate cache1 (tagOf s b addr) (setIdxOf s b addr) B st1 ['L'] =
        (cache1, { st1 with hits := st1.hits + 1 }) := by
      unfold simulate
      have hS : ((['L'] : Chars) == (['S'] : Chars)) = false := rfl
      rw [hS, hget, accessSet_MRU_hit _ _ _ _ hvs2 hivs2]
      dsimp only
      rw [← hget, list_set_getD_self cache1 _ hsi]
    show simLoads s b B addr n
        (simulate cache1 (tagOf s b addr) (setIdxOf s b addr) B st1 ['L']) = _
    rw [hstep, ih cache1 { st1 with hits := st1.hits + 1 }
      ⟨vs2, ivs2, d, hget, hvs2, hivs2⟩ hsi]
    have : st1.hits + 1 + n = st1.hits + (n + 1) := by omega
    rw [this]

/-! Claim theorems. -/

/-- Claim C1: the spec asserts that on a hit the line is moved to the MRU end
and that a load hit preserves the dirty bit.  The code violates the second
part: the hit-promotion loop copies tag/dirty pairs leftwards and then
overwrites only the tag of the last valid slot, so on a load hit the
promoted line receives the dirty bit of the previous MRU line and its own
dirty bit is lost.  Evaluation at the failing input (geometry `s=0, E=2,
b=0`, trace `S 0,1; L 1,1; L 0,1`): after the first two records the tag-0
line is dirty; after the load hit on tag 0 the promoted tag-0 line is
clean, although the claim requires its dirty bit to be preserved. -/
theorem claim_C1_dirty_lost :
    processLines 0 0 1 (traceC1.take 2) (initCache 1 2) initStats =
      some ([[(⟨true, 0, true⟩ : Line), ⟨true, 1, false⟩]],
        { hits := 0, misses := 2, evictions := 0, dirty_bytes := 0, dirty_evictions := 0 }) ∧
    processLines 0 0 1 traceC1 (initCache 1 2) initStats =
      some ([[(⟨true, 1, false⟩ : Line), ⟨true, 0, false⟩]],
        { hits := 1, misses := 2, evictions := 0, dirty_bytes := 0, dirty_evictions := 0 }) :=
  ⟨by decide, by decide⟩

/-- Claim C2, counterexample: the spec places the invalid lines of a set at
the low positions `[0, k)` and the valid lines at the high positions.  In
the code it is the other way round: after a single load on an empty
2-line set, position 0 holds the valid line and position 1 the invalid
one, so the reachable state refutes the claimed placement. -/
theorem claim_C2_counterexample :
    processLines 0 0 1 [lineL0] (initCache 1 2) initStats =
      some ([[(⟨true, 0, false⟩ : Line), ⟨false, 2 ^ 64 - 1, false⟩]],
        { hits := 0, misses := 1, evictions := 0, dirty_bytes := 0, dirty_evictions := 0 }) ∧
    ¬ invalidLinesAtBottom [(⟨true, 0, false⟩ : Line), ⟨false, 2 ^ 64 - 1, false⟩] := by
  refine ⟨by decide, fun h => ?_⟩
  have h2 := h ⟨0, by decide⟩ ⟨1, by decide⟩ (by decide) (by decide)
  exact absurd h2 (by decide)

/-- Claim C2 (amended): in every set the valid lines occupy a contiguous
block at the low positions `[0, v)` ordered least-recently-used (position
0) to most-recently-used (position `v-1`), with the invalid lines at the
high positions `[v, E)`; every access preserves this, moving the accessed
line to the MRU end of the valid block, keeping the relative order of the
other valid lines, and evicting, when needed, the line at position 0. -/
theorem claim_C2_amended (t : Nat) (st : Bool) (set : List Line) (hne : set ≠ [])
    (hgood : GoodSet set) :
    GoodSet (accessSet t st set).1 ∧
    (accessSet t st set).1.length = set.length ∧
    ((∃ pre d post,
        validPart set = pre ++ (⟨true, t, d⟩ : Line) :: post ∧
        (∀ l ∈ pre, l.tag ≠ t) ∧
        ∃ d2, validPart (accessSet t st set).1 = (pre ++ post) ++ [(⟨true, t, d2⟩ : Line)] ∧
          (accessSet t st set).2 = AccessResult.hit) ∨
     ((∀ l ∈ validPart set, l.tag ≠ t) ∧ (validPart set).length < set.length ∧
        ∃ d2, validPart (accessSet t st set).1 = validPart set ++ [(⟨true, t, d2⟩ : Line)] ∧
          (accessSet t st set).2 = AccessResult.cold) ∨
     ((∀ l ∈ validPart set, l.tag ≠ t) ∧ (validPart set).length = set.length ∧
        validPart (accessSet t st set).1 = (validPart set).drop 1 ++ [(⟨true, t, st⟩ : Line)] ∧
        (accessSet t st set).2 = AccessResult.full)) :=
  accessSet_step t st set hne hgood

theorem claim_C2_amended_witness :
    (([(⟨false, 0, false⟩ : Line)] : List Line) ≠ [] ∧
      GoodSet [(⟨false, 0, false⟩ : Line)]) ∧
    (GoodSet (accessSet 0 false [(⟨false, 0, false⟩ : Line)]).1 ∧
     (accessSet 0 false [(⟨false, 0, false⟩ : Line)]).1.length =
       ([(⟨false, 0, false⟩ : Line)] : List Line).length ∧
     ((∃ pre d post,
         validPart [(⟨false, 0, false⟩ : Line)] = pre ++ (⟨true, 0, d⟩ : Line) :: post ∧
         (∀ l ∈ pre, l.tag ≠ 0) ∧
         ∃ d2, validPart (accessSet 0 false [(⟨false, 0, false⟩ : Line)]).1 =
             (pre ++ post) ++ [(⟨true, 0, d2⟩ : Line)] ∧
           (accessSet 0 false [(⟨false, 0, false⟩ : Line)]).2 = AccessResult.hit) ∨
      ((∀ l ∈ validPart [(⟨false, 0, false⟩ : Line)], l.tag ≠ 0) ∧
         (validPart [(⟨false, 0, false⟩ : Line)]).length <
           ([(⟨false, 0, false⟩ : Line)] : List Line).length ∧
         ∃ d2, validPart (accessSet 0 false [(⟨false, 0, false⟩ : Line)]).1 =
             validPart [(⟨false, 0, false⟩ : Line)] ++ [(⟨true, 0, d2⟩ : Line)] ∧
           (accessSet 0 false [(⟨false, 0, false⟩ : Line)]).2 = AccessResult.cold) ∨
      ((∀ l ∈ validPart [(⟨false, 0, false⟩ : Line)], l.tag ≠ 0) ∧
         (validPart [(⟨false, 0, false⟩ : Line)]).length =
           ([(⟨false, 0, false⟩ : Line)] : List Line).length ∧
         validPart (accessSet 0 false [(⟨false, 0, false⟩ : Line)]).1 =
           (validPart [(⟨false, 0, false⟩ : Line)]).drop 1 ++ [(⟨true, 0, false⟩ : Line)] ∧
         (accessSet 0 false [(⟨false, 0, false⟩ : Line)]).2 = AccessResult.full))) :=
  ⟨⟨by decide, ⟨[], [⟨false, 0, false⟩], rfl, by decide, by decide⟩⟩,
   claim_C2_amended 0 false [⟨false, 0, false⟩] (by decide)
     ⟨[], [⟨false, 0, false⟩], rfl, by decide, by decide⟩⟩

/-- Claim C3: for a valid geometry and a trace that parses successfully,
the statistics accumulated during the trace carry `dirty_bytes = 0` (it is
not maintained incrementally), and the reported run result is those
statistics with `dirty_bytes` set once, at end of trace, to `B = 2^b`
times the number of lines that are valid and dirty in the final cache. -/
theorem claim_C3_dirty_bytes (s b E : Nat) (lines : List Chars)
    (cache : List (List Line)) (stats : CsimStats)
    (hgeom : s + b ≤ 64) (hE : 1 ≤ E)
    (h : processLines s b (2 ^ b) lines (initCache (2 ^ s) E) initStats =
      some (cache, stats)) :
    stats.dirty_bytes = 0 ∧
    runSim s b E lines =
      some { stats with dirty_bytes := 2 ^ b * countValidDirty cache } := by
  have hdb : stats.dirty_bytes = 0 := by
    have h0 := processLines_dirty_bytes s b (2 ^ b) lines _ _ _ _ h
    simpa [initStats] using h0
  refine ⟨hdb, ?_⟩
  unfold runSim
  rw [h]
  dsimp only
  have hg : GoodCache cache :=
    processLines_good s b (2 ^ b) lines _ _ _ _ h (initCache_good _ _)
  rw [sweep_eq_validDirty _ _ (goodCache_dirty_valid _ hg), hdb, Nat.zero_add]

theorem claim_C3_dirty_bytes_witness :
    ((0 : Nat) + 0 ≤ 64 ∧ (1 : Nat) ≤ 1 ∧
     processLines 0 0 (2 ^ 0) [lineS0] (initCache (2 ^ 0) 1) initStats =
       some ([[(⟨true, 0, true⟩ : Line)]], (⟨0, 1, 0, 0, 0⟩ : CsimStats))) ∧
    ((⟨0, 1, 0, 0, 0⟩ : CsimStats).dirty_bytes = 0 ∧
     runSim 0 0 1 [lineS0] =
       some { (⟨0, 1, 0, 0, 0⟩ : CsimStats) with dirty_bytes := 2 ^ 0 * countValidDirty [[(⟨true, 0, true⟩ : Line)]] }) :=
  ⟨⟨by decide, by decide, by decide⟩,
   claim_C3_dirty_bytes 0 0 1 [lineS0] [[(⟨true, 0, true⟩ : Line)]]
     (⟨0, 1, 0, 0, 0⟩ : CsimStats) (by decide) (by decide) (by decide)⟩

/-- Claim C4, counterexample: the spec requires a size numeral of zero to
abort parsing; the code only rejects sizes greater than 1024 (or with
trailing junk), so the line `L 1,0\n` parses successfully as a Load of
address 1 with size 0. -/
theorem claim_C4_counterexample :
    parseRecord lineSizeZero = some (['L'], 1, 0) := by decide

/-- Claim C4 (amended): a trace line whose size numeral is zero is accepted
and applied as a normal access (only a size with trailing non-numeric
characters or exceeding 1024 aborts parsing): running the one-line trace
`L 1,0\n` succeeds, emits a summary, and counts exactly one access, a
miss. -/
theorem claim_C4_amended :
    runSim 0 0 1 [lineSizeZero] = some (⟨0, 1, 0, 0, 0⟩ : CsimStats) := by decide

/-- Claim C5: the spec requires an address numeral exceeding `2^64 - 1` to
abort parsing as a trace error.  In the code `strtoull` clamps the
out-of-range value to `ULLONG_MAX = 2^64 - 1` and the guard
`addr > MAXADDR` can never fire (`addr` is a 64-bit unsigned), so the line
`L 10000000000000000,1\n` (address `2^64`) is accepted and applied as an
access to address `2^64 - 1` instead of being rejected. -/
theorem claim_C5_overflow_applied :
    parseRecord lineAddrOver = some (['L'], 2 ^ 64 - 1, 1) ∧
    processLines 0 0 1 [lineAddrOver] (initCache 1 1) initStats =
      some ([[(⟨true, 2 ^ 64 - 1, false⟩ : Line)]],
        { hits := 0, misses := 1, evictions := 0, dirty_bytes := 0, dirty_evictions := 0 }) :=
  ⟨by decide, by decide⟩

/-- Claim C6: for every valid geometry and 64-bit address, the set index
computed by the parser equals `(addr >> b) mod 2^s`, and is 0 whenever
`s = 0`; the shift-based formula used for `s > 0` agrees with this over the
whole valid range. -/
theorem claim_C6_set_index (s b addr : Nat) (hsb : s + b ≤ 64) (haddr : addr < 2 ^ 64) :
    setIdxOf s b addr = (addr / 2 ^ b) % 2 ^ s ∧
    (s = 0 → setIdxOf s b addr = 0) :=
  ⟨setIdxOf_eq s b addr hsb, fun hs => by simp [setIdxOf, hs]⟩

theorem claim_C6_set_index_witness :
    ((2 : Nat) + 2 ≤ 64 ∧ (28 : Nat) < 2 ^ 64) ∧
    (setIdxOf 2 2 28 = (28 / 2 ^ 2) % 2 ^ 2 ∧ ((2 : Nat) = 0 → setIdxOf 2 2 28 = 0)) :=
  ⟨⟨by decide, by decide⟩, claim_C6_set_index 2 2 28 (by decide) (by decide)⟩

/-- Claim C7: every single access increments exactly one of `hits` and
`misses` by exactly one, and after a successfully processed trace
`hits + misses` exceeds its initial value by exactly the number of applied
records. -/
theorem claim_C7_hits_misses (s b B : Nat) (lines : List Chars)
    (cache0 cache : List (List Line)) (stats0 stats : CsimStats)
    (h : processLines s b B lines cache0 stats0 = some (cache, stats)) :
    stats.hits + stats.misses = stats0.hits + stats0.misses + lines.length ∧
    ∀ (c : List (List Line)) (st : CsimStats) (t si : Nat) (op : Chars),
      ((simulate c t si B st op).2.hits = st.hits + 1 ∧
       (simulate c t si B st op).2.misses = st.misses) ∨
      ((simulate c t si B st op).2.misses = st.misses + 1 ∧
       (simulate c t si B st op).2.hits = st.hits) :=
  ⟨processLines_hits_misses s b B lines _ _ _ _ h,
   fun c st t si op => simulate_stats c t si B st op⟩

theorem claim_C7_hits_misses_witness :
    processLines 0 0 1 [lineS0] (initCache 1 1) initStats =
      some ([[(⟨true, 0, true⟩ : Line)]],
        { hits := 0, misses := 1, evictions := 0, dirty_bytes := 0, dirty_evictions := 0 }) ∧
    ((⟨0, 1, 0, 0, 0⟩ : CsimStats).hits + (⟨0, 1, 0, 0, 0⟩ : CsimStats).misses =
      initStats.hits + initStats.misses + ([lineS0] : List Chars).length ∧
     ∀ (c : List (List Line)) (st : CsimStats) (t si : Nat) (op : Chars),
      ((simulate c t si 1 st op).2.hits = st.hits + 1 ∧
       (simulate c t si 1 st op).2.misses = st.misses) ∨
      ((simulate c t si 1 st op).2.misses = st.misses + 1 ∧
       (simulate c t si 1 st op).2.hits = st.hits)) :=
  ⟨by decide, claim_C7_hits_misses 0 0 1 [lineS0] (initCache 1 1) [[(⟨true, 0, true⟩ : Line)]]
    initStats (⟨0, 1, 0, 0, 0⟩ : CsimStats) (by decide)⟩

/-- Claim C8: with geometry `s=0, E=4, b=0`, the trace
`S 1,1; S 2,1; L 1,1; S 3,1; S 4,1; S 5,1` produces
`hits=1 misses=5 evictions=1 dirty_bytes=4 dirty_evictions=1`; after the
first five records the LRU position of the single set holds the dirty
tag-2 line, which is what the final store evicts. -/
theorem claim_C8_scenario :
    runSim 0 0 4 traceC8 =
      some { hits := 1, misses := 5, evictions := 1, dirty_bytes := 4, dirty_evictions := 1 } ∧
    processLines 0 0 1 (traceC8.take 5) (initCache 1 4) initStats =
      some ([[(⟨true, 2, true⟩ : Line), ⟨true, 1, true⟩, ⟨true, 3, true⟩, ⟨true, 4, true⟩]],
        { hits := 1, misses := 4, evictions := 0, dirty_bytes := 0, dirty_evictions := 0 }) :=
  ⟨by decide, by decide⟩

/-- Claim C9, counterexample: the claim quantifies over every cache state,
but if the loaded address is already cached the first load hits, so the
sequence produces zero misses rather than exactly one.  Concretely: from
the reachable state after `L 0,1` (tag 0 resident, `misses = 1`), one
further load of address 0 leaves `misses` at 1 and bumps `hits`,
contradicting the claimed "exactly one miss (on the first access)". -/
theorem claim_C9_counterexample :
    processLines 0 0 1 [lineL0] (initCache 1 1) initStats =
      some ([[(⟨true, 0, false⟩ : Line)]],
        { hits := 0, misses := 1, evictions := 0, dirty_bytes := 0, dirty_evictions := 0 }) ∧
    (simLoads 0 0 1 0 1 ([[(⟨true, 0, false⟩ : Line)]],
      { hits := 0, misses := 1, evictions := 0, dirty_bytes := 0,
        dirty_evictions := 0 })).2.misses = 1 ∧
    (simLoads 0 0 1 0 1 ([[(⟨true, 0, false⟩ : Line)]],
      { hits := 0, misses := 1, evictions := 0, dirty_bytes := 0,
        dirty_evictions := 0 })).2.hits = 1 :=
  ⟨by decide, by decide, by decide⟩

/-- Claim C9 (amended): for every well-formed cache state whose addressed
set does not hold the accessed tag (and is a real set: in range and
nonempty), `N ≥ 1` consecutive loads of one address produce exactly one
miss, on the first access, followed by `N-1` hits, and the cache (in
particular the addressed set) is identical before and after every access
from the second one onward. -/
theorem claim_C9_amended (s b B addr : Nat) (cache : List (List Line)) (stats : CsimStats)
    (hgood : GoodCache cache)
    (hsi : setIdxOf s b addr < cache.length)
    (hne : cache.getD (setIdxOf s b addr) [] ≠ [])
    (habs : ∀ l ∈ cache.getD (setIdxOf s b addr) [],
      l.valid = true → l.tag ≠ tagOf s b addr) :
    ∀ k, 1 ≤ k →
      (simLoads s b B addr k (cache, stats)).2.misses = stats.misses + 1 ∧
      (simLoads s b B addr k (cache, stats)).2.hits = stats.hits + (k - 1) ∧
      (simLoads s b B addr (k + 1) (cache, stats)).1 =
        (simLoads s b B addr k (cache, stats)).1 := by
  have hg0 : GoodSet (cache.getD (setIdxOf s b addr) []) := by
    rcases list_getD_mem_or cache (setIdxOf s b addr) with hmem | hnil
    · exact hgood _ hmem
    · exact absurd hnil hne
  have hS : ((['L'] : Chars) == (['S'] : Chars)) = false := rfl
  obtain ⟨vs2, ivs2, d, hshape, hvs2, hivs2, hnothit⟩ :=
    accessSet_absent (tagOf s b addr) false (cache.getD (setIdxOf s b addr) []) hne hg0 habs
  have hstats1 := simulate_miss_stats cache (tagOf s b addr) (setIdxOf s b addr) B stats ['L']
    (by rw [hS]; exact hnothit)
  have hfst : (simulate cache (tagOf s b addr) (setIdxOf s b addr) B stats ['L']).1 =
      cache.set (setIdxOf s b addr)
        (accessSet (tagOf s b addr) false (cache.getD (setIdxOf s b addr) [])).1 := by
    rw [simulate_fst, hS]
  have hlen1 : (simulate cache (tagOf s b addr) (setIdxOf s b addr) B stats ['L']).1.length =
      cache.length := by
    rw [hfst]
    exact List.length_set cache _ _
  have hshape1 : (simulate cache (tagOf s b addr) (setIdxOf s b addr) B stats
      ['L']).1.getD (setIdxOf s b addr) [] =
      vs2 ++ (⟨true, tagOf s b addr, d⟩ : Line) :: ivs2 := by
    rw [hfst, list_getD_set_self _ _ _ hsi, hshape]
  have hsi1 : setIdxOf s b addr <
      (simulate cache (tagOf s b addr) (setIdxOf s b addr) B stats ['L']).1.length := by
    rw [hlen1]; exact hsi
  have hstable : ∀ (j : Nat) (st' : CsimStats),
      simLoads s b B addr j
        ((simulate cache (tagOf s b addr) (setIdxOf s b addr) B stats ['L']).1, st') =
      ((simulate cache (tagOf s b addr) (setIdxOf s b addr) B stats ['L']).1,
        { st' with hits := st'.hits + j }) :=
    fun j st' => simLoads_stable s b B addr j _ st'
      ⟨vs2, ivs2, d, hshape1, hvs2, hivs2⟩ hsi1
  have hstep : ∀ m, simLoads s b B addr (m + 1) (cache, stats) =
      simLoads s b B addr m
        ((simulate cache (tagOf s b addr) (setIdxOf s b addr) B stats ['L']).1,
         (simulate cache (tagOf s b addr) (setIdxOf s b addr) B stats ['L']).2) :=
    fun m => rfl
  intro k hk
  obtain ⟨j, rfl⟩ : ∃ j, k = j + 1 := ⟨k - 1, by omega⟩
  refine ⟨?_, ?_, ?_⟩
  · rw [hstep j, hstable j]
    exact hstats1.2
  · rw [hstep j, hstable j]
    have : (simulate cache (tagOf s b addr) (setIdxOf s b addr) B stats ['L']).2.hits + j =
        stats.hits + j := by rw [hstats1.1]
    simpa using this
  · rw [hstep (j + 1), hstep j, hstable (j + 1), hstable j]

theorem claim_C9_amended_witness :
    (GoodCache (initCache 1 1) ∧
     setIdxOf 0 0 5 < (initCache 1 1).length ∧
     (initCache 1 1).getD (setIdxOf 0 0 5) [] ≠ [] ∧
     (∀ l ∈ (initCache 1 1).getD (setIdxOf 0 0 5) [],
       l.valid = true → l.tag ≠ tagOf 0 0 5)) ∧
    (∀ k, 1 ≤ k →
      (simLoads 0 0 1 5 k (initCache 1 1, initStats)).2.misses = initStats.misses + 1 ∧
      (simLoads 0 0 1 5 k (initCache 1 1, initStats)).2.hits = initStats.hits + (k - 1) ∧
      (simLoads 0 0 1 5 (k + 1) (initCache 1 1, initStats)).1 =
        (simLoads 0 0 1 5 k (initCache 1 1, initStats)).1) :=
  ⟨⟨initCache_good 1 1, by decide, by decide, by decide⟩,
   claim_C9_amended 0 0 1 5 (initCache 1 1) initStats (initCache_good 1 1)
     (by decide) (by decide) (by decide)⟩

/-- Claim C10: starting from the all-invalid cache, after any successfully
processed trace every dirty line is valid (dirty implies valid), and hence
the end-of-trace sweep — which tests only the dirty flag — counts exactly
the valid dirty lines. -/
theorem claim_C10_dirty_implies_valid (s b E B : Nat) (lines : List Chars)
    (cache : List (List Line)) (stats : CsimStats)
    (h : processLines s b B lines (initCache (2 ^ s) E) initStats = some (cache, stats)) :
    (∀ set ∈ cache, ∀ l ∈ set, l.dirty = true → l.valid = true) ∧
    sweepDirtyBytes B cache = B * countValidDirty cache := by
  have hg : GoodCache cache :=
    processLines_good s b B lines _ _ _ _ h (initCache_good _ _)
  have hdv := goodCache_dirty_valid _ hg
  exact ⟨hdv, sweep_eq_validDirty _ _ hdv⟩

theorem claim_C10_dirty_implies_valid_witness :
    processLines 0 0 1 [lineS0] (initCache (2 ^ 0) 1) initStats =
      some ([[(⟨true, 0, true⟩ : Line)]],
        { hits := 0, misses := 1, evictions := 0, dirty_bytes := 0, dirty_evictions := 0 }) ∧
    ((∀ set ∈ ([[(⟨true, 0, true⟩ : Line)]] : List (List Line)), ∀ l ∈ set,
        l.dirty = true → l.valid = true) ∧
     sweepDirtyBytes 1 [[(⟨true, 0, true⟩ : Line)]] =
       1 * countValidDirty [[(⟨true, 0, true⟩ : Line)]]) :=
  ⟨by decide, claim_C10_dirty_implies_valid 0 0 1 1 [lineS0] [[(⟨true, 0, true⟩ : Line)]]
    (⟨0, 1, 0, 0, 0⟩ : CsimStats) (by decide)⟩

end Csim
